import Mathlib

/-!
Verification development for the TREX-IO conversion module
(`pyscf/tools/trexio.py`): a shallow embedding of its data-model
mapping layer, together with proofs of the specified properties.

Conventions of the embedding:
* numpy integer arrays become `List ℕ` / `List Int`; real-valued arrays
  become lists or total functions into `Int` (the properties at stake are
  permutation/packing identities, which are exact and independent of the
  numeric field);
* dense 2-D arrays become total functions `ℕ → ℕ → Int`, with claims
  restricted to the in-range index rectangle;
* fallible Python code (uncaught `KeyError`, `assert`, `TypeError`,
  `NotImplementedError`) becomes `Except String`.
-/

/-- Triangular number in the division form used throughout the source:
`n * (n + 1) // 2`. -/
def tri (n : ℕ) : ℕ := n * (n + 1) / 2

/-- Backend dispatcher `_mode`: the binary container (`h5`) maps to code 0,
any other string maps to the text backend code 1. -/
def mode (code : String) : ℕ :=
  if code = "h5" then 0 else 1

/-- The generalized-contraction guard of `_mol_to_trexio`
(`if not all(mol._bas[:,gto.NCTR_OF] == 1): raise NotImplementedError`).
`nctrs` is the per-shell contraction-column count column of `mol._bas`. -/
def contraction_check (nctrs : List ℕ) : Except String Unit :=
  if nctrs.all (fun c => c = 1) then Except.ok ()
  else Except.error "NotImplementedError: The generalized contraction is not supported."

/-- The general spherical interleaving block of `_order_ao_index` for `2 ≤ l`:
`idx[::2] = l - arange(0, l+1)` and `idx[1::2] = arange(l+1, l+l+1)`,
i.e. position `p` holds `l - p/2` when `p` is even and `l + 1 + p/2` when
`p` is odd (magnetic quantum numbers ordered 0, +1, -1, +2, -2, ...). -/
def general_block (l : ℕ) : List ℕ :=
  (List.range (2 * l + 1)).map (fun p => if p % 2 = 0 then l - p / 2 else l + 1 + p / 2)

/-- The per-`l` block cache `cache_by_l` of `_order_ao_index`: the `l = 0`
and `l = 1` entries are the hard-coded lists `[0]` and `[2, 0, 1]`
(`Pz, Px, Py`), and every higher `l` uses the general interleaving. -/
def cache_by_l (l : ℕ) : List ℕ :=
  match l with
  | 0 => [0]
  | 1 => [2, 0, 1]
  | _ => general_block l

/-- Inner loop of `_order_ao_index`: one block per contraction column of a
shell of angular momentum `l`, with the offset advanced by `2*l+1` after
each block. -/
def ctr_blocks (l : ℕ) (off : ℕ) : ℕ → List ℕ
  | 0 => []
  | m + 1 => (cache_by_l l).map (· + off) ++ ctr_blocks l (off + (2 * l + 1)) m

/-- Outer loop of `_order_ao_index` over shells.  A shell is modelled by the
pair (angular momentum `l`, contraction-column count `nctr`), matching the
`mol.bas_angular(ib)` / `mol.bas_nctr(ib)` columns the source reads. -/
def sph_ao_blocks : List (ℕ × ℕ) → ℕ → List ℕ
  | [], _ => []
  | (l, c) :: rest, off => ctr_blocks l off c ++ sph_ao_blocks rest (off + c * (2 * l + 1))

/-- Spherical atomic-orbital count: `2*l+1` functions per contraction column. -/
def nao_sph : List (ℕ × ℕ) → ℕ
  | [] => 0
  | (l, c) :: rest => c * (2 * l + 1) + nao_sph rest

/-- Cartesian atomic-orbital count: `(l+1)*(l+2)/2` functions per
contraction column. -/
def nao_cart : List (ℕ × ℕ) → ℕ
  | [] => 0
  | (l, c) :: rest => c * ((l + 1) * (l + 2) / 2) + nao_cart rest

/-- `mol.nao` for the modelled shell list, by orbital kind. -/
def nao (cartB : Bool) (shells : List (ℕ × ℕ)) : ℕ :=
  if cartB then nao_cart shells else nao_sph shells

/-- `_order_ao_index`: identity on `range mol.nao` for Cartesian orbitals,
per-shell interleaving blocks for spherical orbitals. -/
def order_ao_index (cartB : Bool) (shells : List (ℕ × ℕ)) : List ℕ :=
  if cartB then List.range (nao_cart shells) else sph_ao_blocks shells 0

/-- Modelled from the spec: contraction-column loop of the uniform-formula
ordering (companion of `sph_ao_blocks_formula`). -/
def ctr_blocks_formula (l : ℕ) (off : ℕ) : ℕ → List ℕ
  | 0 => []
  | m + 1 => (general_block l).map (· + off) ++ ctr_blocks_formula l (off + (2 * l + 1)) m

/-- Modelled from the spec: the spec asserts that every per-shell block of
the spherical ordering, including `l = 0` and `l = 1`, is produced by the
single general interleaving formula, with the offset advanced by `2*l+1`
per contraction column.  This definition applies `general_block`
uniformly, for comparison with the source's `sph_ao_blocks`. -/
def sph_ao_blocks_formula : List (ℕ × ℕ) → ℕ → List ℕ
  | [], _ => []
  | (l, c) :: rest, off => ctr_blocks_formula l off c ++ sph_ao_blocks_formula rest (off + c * (2 * l + 1))

/-- Modelled from the spec: the AO ordering the spec claims, with every
block given by the general interleaving formula. -/
def order_ao_index_formula (shells : List (ℕ × ℕ)) : List ℕ :=
  sph_ao_blocks_formula shells 0

/-- Numpy fancy row indexing `a[idx]`: row `i` of the result is row `idx[i]`
of `a`.  Dense 2-D arrays are embedded as total functions; indices past the
end of `idx` read a junk row, which no in-range claim depends on. -/
def fancy_rows (idx : List ℕ) (a : ℕ → ℕ → Int) : ℕ → ℕ → Int :=
  fun i j => a (idx.getD i 0) j

/-- Numpy transpose `a.T`. -/
def transpose_f (a : ℕ → ℕ → Int) : ℕ → ℕ → Int :=
  fun i j => a j i

/-- Numpy row-major `a.ravel()` of a matrix with `ncols` columns: flat
element `k` is `a[k / ncols][k % ncols]`. -/
def ravel_f (ncols : ℕ) (a : ℕ → ℕ → Int) : ℕ → Int :=
  fun k => a (k / ncols) (k % ncols)

/-- Row-major reshape of a flat buffer to a matrix with `ncols` columns,
as performed when the container returns the stored `mo_coefficient`
buffer as an `(mo_num, ao_num)` array. -/
def reshape_f (ncols : ℕ) (v : ℕ → Int) : ℕ → ℕ → Int :=
  fun i j => v (i * ncols + j)

/-- The restricted-orbital coefficient write of `_scf_to_trexio`
(`trexio.write_mo_coefficient(trexio_file, mo[idx].T.ravel())` with
`idx = _order_ao_index(mf.mol)`), for a square `mo` of side `mol.nao`. -/
def write_mo_coefficient (cartB : Bool) (shells : List (ℕ × ℕ)) (mo : ℕ → ℕ → Int) : ℕ → Int :=
  ravel_f (nao cartB shells) (transpose_f (fancy_rows (order_ao_index cartB shells) mo))

/-- Numpy row-scatter `a[idx] = b`: each pair assigns one row, later pairs
overriding earlier ones on duplicate indices. -/
def assign_rows : List (ℕ × (ℕ → Int)) → (ℕ → ℕ → Int) → (ℕ → ℕ → Int)
  | [], acc => acc
  | (r, v) :: rest, acc => assign_rows rest (fun i j => if i = r then v j else acc i j)

/-- The orbital-coefficient reconstruction of `scf_from_trexio`:
`mf.mo_coeff = np.empty_like(mo).T; mf.mo_coeff[idx] = mo.T` where `mo` is
the stored square coefficient matrix.  `seed` stands for the unspecified
contents of `np.empty_like`. -/
def scf_from_trexio_mo (cartB : Bool) (shells : List (ℕ × ℕ)) (flat : ℕ → Int)
    (seed : ℕ → ℕ → Int) : ℕ → ℕ → Int :=
  assign_rows ((List.range (nao cartB shells)).map (fun k =>
    ((order_ao_index cartB shells).getD k 0,
      fun j => transpose_f (reshape_f (nao cartB shells) flat) k j))) seed

/-- Row-major enumeration of the lower-triangular index pairs of an
`n × n` array, as produced by
`np.argwhere(np.arange(n)[:,None] >= np.arange(n))`:
`(0,0), (1,0), (1,1), (2,0), ...`, pair `(i, j)` at position `tri i + j`. -/
def tril_pairs : ℕ → List (ℕ × ℕ)
  | 0 => []
  | n + 1 => tril_pairs n ++ (List.range (n + 1)).map (fun j => (n, j))

/-- The 4-index tuple list of the 8-fold-symmetry branch of `write_eri`:
the pair-of-pairs lower triangle `idx[np.tril_indices(npair)]`, each entry
expanding a pair of compressed pair indices through `tril_pairs n`. -/
def eri_idx_list (npair n : ℕ) : List (ℕ × ℕ × ℕ × ℕ) :=
  (tril_pairs npair).map (fun pq =>
    let a := (tril_pairs n).getD pq.1 (0, 0)
    let b := (tril_pairs n).getD pq.2 (0, 0)
    (a.1, a.2, b.1, b.2))

/-- `write_eri` on a 1-D (8-fold symmetry-packed) integral array: recovers
`npair = int((size * 2) ** .5)` and `n = int((npair * 2) ** .5)` (exact for
triangular sizes, embedded as `Nat.sqrt`), and stores the parallel
(index-tuple, value) arrays. -/
def write_eri (eri : List Int) : List ((ℕ × ℕ × ℕ × ℕ) × Int) :=
  (eri_idx_list (Nat.sqrt (2 * eri.length)) (Nat.sqrt (2 * Nat.sqrt (2 * eri.length)))).zip eri

/-- The packed linear address computed by `read_eri` from a stored 4-index
tuple: `x = i*(i+1)//2 + j`, `y = k*(k+1)//2 + l`, address `x*(x+1)//2 + y`. -/
def eri_addr (e : ℕ × ℕ × ℕ × ℕ) : ℕ :=
  (e.1 * (e.1 + 1) / 2 + e.2.1) * (e.1 * (e.1 + 1) / 2 + e.2.1 + 1) / 2
    + (e.2.2.1 * (e.2.2.1 + 1) / 2 + e.2.2.2)

/-- `read_eri`: allocates `eri = np.zeros(eri_size)` for
`eri_size = nao_pair*(nao_pair+1)//2`, `nao_pair = nmo*(nmo+1)//2`, and
scatters every stored value to its packed address (`eri[x*(x+1)//2+y] = data`);
unwritten positions keep the zero default. -/
def read_eri (nmo : ℕ) (file : List ((ℕ × ℕ × ℕ × ℕ) × Int)) : List Int :=
  file.foldl (fun acc e => acc.set (eri_addr e.1) e.2)
    (List.replicate (nmo * (nmo + 1) / 2 * (nmo * (nmo + 1) / 2 + 1) / 2) 0)

/-- An unrestricted mean-field object as read by `_scf_to_trexio`:
`mo_energy`, `mo_coeff` and `mo_occ` each hold an alpha block and a beta
block.  Coefficient blocks are row lists (rows = atomic orbitals). -/
structure UhfMf where
  mo_energy_a : List Int
  mo_energy_b : List Int
  mo_coeff_a : List (List Int)
  mo_coeff_b : List (List Int)
  mo_occ_a : List Int
  mo_occ_b : List Int

/-- The values the unrestricted branch of `_scf_to_trexio` binds for the
`mo` group. -/
structure UhfMoGroup where
  mo_type : String
  mo_energy : List Int
  mo : List Int
  mo_occ : List Int
  spin : List Int

/-- The call `np.hstack(*blocks)`: `np.hstack` has signature
`hstack(tup, *, dtype=None, casting=...)`, so every positional argument
beyond the first raises `TypeError` before any array semantics apply.
With a single positional 2-D argument, numpy iterates its first axis and
concatenates the rows, yielding the flattened 1-D array. -/
def np_hstack_star (blocks : List (List (List Int))) : Except String (List Int) :=
  match blocks with
  | [b] => Except.ok b.flatten
  | _ => Except.error "TypeError: hstack() takes 1 positional argument but 2 were given"

/-- The unrestricted (`isinstance(mf, scf.uhf.UHF)`) branch of
`_scf_to_trexio`: `mo_energy = np.ravel(mf.mo_energy)`,
`mo = np.hstack(*mf.mo_coeff)`, `mo_occ = np.ravel(mf.mo_occ)`,
`spin = np.zeros(mo_energy.size); spin[mf.mo_energy[0].size:] = 1`,
`mo_type = 'UHF'`. -/
def scf_to_trexio_uhf (mf : UhfMf) : Except String UhfMoGroup := do
  let moEnergy := mf.mo_energy_a ++ mf.mo_energy_b
  let mo ← np_hstack_star [mf.mo_coeff_a, mf.mo_coeff_b]
  let moOcc := mf.mo_occ_a ++ mf.mo_occ_b
  let spin := List.replicate mf.mo_energy_a.length (0 : Int)
    ++ List.replicate (moEnergy.length - mf.mo_energy_a.length) (1 : Int)
  Except.ok { mo_type := "UHF", mo_energy := moEnergy, mo := mo, mo_occ := moOcc, spin := spin }

/-- One channel of a PySCF internal-format ECP entry: `ecp[0]` is the
angular momentum (`-1` marks the local `ul` channel) and `ecp[1]` lists,
for each radial power `r`, the (exponent, coefficient) pairs. -/
structure EcpShell where
  ang : Int
  rTerms : List (List (Int × Int))
deriving DecidableEq

/-- One flat-array ECP row emitted by `_mol_to_trexio` (one increment of
`ecp_num`). -/
structure EcpEntry where
  nucleus : ℕ
  angMom : Int
  coefficient : Int
  exponent : Int
  power : Int
deriving DecidableEq

/-- The inert placeholder row (coefficient 0, exponent 1, power 0, channel
0) emitted for ghost centers and for the missing `ul`-s part of H/He. -/
def inert_entry (i : ℕ) : EcpEntry :=
  { nucleus := i, angMom := 0, coefficient := 0, exponent := 1, power := 0 }

/-- The ghost-center test `re.match(r"X-.*", label)`: the label begins
with the two characters `X-`. -/
def ghost_label (s : String) : Bool :=
  s.toList.take 2 == ['X', '-']

/-- The nucleus lookup of the ECP loop:
`try: mol._ecp[atom_symbol] except KeyError: mol._ecp[chemical_symbol]`;
a failure of the second lookup is an uncaught `KeyError`. -/
def ecp_lookup (tbl : List (String × Int × List EcpShell)) (atomSym chemSym : String) :
    Except String (Int × List EcpShell) :=
  match tbl.lookup atomSym with
  | some d => Except.ok d
  | none =>
    match tbl.lookup chemSym with
    | some d => Except.ok d
    | none => Except.error "KeyError"

/-- Per-nucleus ECP expansion (body of the loop of `_mol_to_trexio` after a
successful table lookup): computes `max_ang_mom_plus_1` (with the H/He
`ul`-s fallback when every channel is the `-1` local marker), re-maps `-1`
channels to the local index, and emits one flat row per
(exponent, coefficient) pair with `power = r - 2`; `max()` of an empty
channel list is a `ValueError` as in Python. -/
def encode_ecp_atom (i : ℕ) (shells : List EcpShell) : Except String (Int × List EcpEntry) :=
  match (shells.map (fun s => s.ang)).max? with
  | none => Except.error "ValueError: max() arg is an empty sequence"
  | some maxAng =>
    let plus1 : Int := if maxAng = -1 then 1 else maxAng + 1
    let entries := shells.flatMap (fun sh =>
      let ang := if sh.ang = -1 then plus1 else sh.ang
      sh.rTerms.enum.flatMap (fun rt =>
        rt.2.map (fun ec =>
          { nucleus := i, angMom := ang, coefficient := ec.2, exponent := ec.1,
            power := (rt.1 : Int) - 2 })))
    Except.ok (plus1, entries ++ (if maxAng = -1 then [inert_entry i] else []))

/-- The ECP loop of `_mol_to_trexio` over the zipped
(chemical symbol, atom symbol) nucleus lists, carrying the nucleus index:
ghost centers (label matching `X-`) contribute one inert row with
`max_ang_mom_plus_1 = 1` and `z_core = 0`; other nuclei go through the
table lookup and per-nucleus expansion.  Returns the
(`ecp_max_ang_mom_plus_1`, `ecp_z_core`, flat rows) accumulation;
`ecp_num` is the number of flat rows. -/
def encode_ecp_go (tbl : List (String × Int × List EcpShell)) :
    ℕ → List (String × String) → Except String (List Int × List Int × List EcpEntry)
  | _, [] => Except.ok ([], [], [])
  | i, (chem, atom) :: rest =>
    if ghost_label chem || ghost_label atom then
      match encode_ecp_go tbl (i + 1) rest with
      | Except.error e => Except.error e
      | Except.ok (ms, zs, es) => Except.ok (1 :: ms, 0 :: zs, inert_entry i :: es)
    else
      match ecp_lookup tbl atom chem with
      | Except.error e => Except.error e
      | Except.ok (z, shells) =>
        match encode_ecp_atom i shells with
        | Except.error e => Except.error e
        | Except.ok (plus1, es1) =>
          match encode_ecp_go tbl (i + 1) rest with
          | Except.error e => Except.error e
          | Except.ok (ms, zs, es) => Except.ok (plus1 :: ms, z :: zs, es1 ++ es)

/-- The ECP section of `_mol_to_trexio` (entered when `mol._ecp` is
non-empty), over the nucleus label lists. -/
def encode_ecp (atoms : List (String × String)) (tbl : List (String × Int × List EcpShell)) :
    Except String (List Int × List Int × List EcpEntry) :=
  encode_ecp_go tbl 0 atoms

/-- Discriminator for `Except` results (used to state that a conversion
does not complete). -/
def except_is_ok {ε α : Type _} : Except ε α → Bool
  | Except.ok _ => true
  | Except.error _ => false

/-- `np.unique(keys, return_index=True)[1]`: the index of the first
occurrence in `keys` of each distinct value, ordered by ascending value. -/
def np_unique_return_index (keys : List Int) : List ℕ :=
  ((keys.insertionSort (· ≤ ·)).dedup).map (fun v => keys.indexOf v)

/-- Interior of `np.split(a, ps)` with absolute split positions: segment
bounds are consecutive pairs of `0 :: ps ++ [a.length]`, each segment the
Python slice `a[lo:p]`. -/
def np_split_go {α : Type} (a : List α) : ℕ → List ℕ → List (List α)
  | lo, [] => [a.drop lo]
  | lo, p :: ps => ((a.take p).drop lo) :: np_split_go a p ps

/-- `np.split(a, ps)`. -/
def np_split {α : Type} (a : List α) (ps : List ℕ) : List (List α) :=
  np_split_go a 0 ps

/-- `_group_by(a, keys)`: asserts `all(keys[:-1] <= keys[1:])`, then splits
`a` at the tail of the first-occurrence index list of `keys`
(`np.split(a, idx[1:])`). -/
def group_by {α : Type} (a : List α) (keys : List Int) : Except String (List (List α)) :=
  if (keys.zip keys.tail).all (fun p => decide (p.1 ≤ p.2)) then
    Except.ok (np_split a ((np_unique_return_index keys).tail))
  else Except.error "AssertionError"

/-- Modelled from the spec: the positions at which the key changes (the
spec describes the sorted-key grouping as a stable split at key-change
positions).  Position 0 always qualifies; position `i > 0` qualifies when
`keys[i-1] ≠ keys[i]`. -/
def first_pos (keys : List Int) : List ℕ :=
  (List.range keys.length).filter (fun i => i == 0 || !(keys.getD (i - 1) 0 == keys.getD i 0))

/-- The attributes `mol_from_trexio` reads from the container. -/
structure TrexioFileMol where
  basisType : String
  hasEcp : Bool
  labels : List String
  coords : List (Int × Int × Int)
  hasAoCartesian : Bool
  aoCartesian : Int
  hasPointGroup : Bool
  pointGroup : String
  nucleusIndex : List Int
  shellAngMom : List ℕ
  shellIndex : List Int
  exponents : List Int
  coefficients : List Int
deriving DecidableEq

/-- The reconstructed molecule state `mol_from_trexio` assembles before
`mol.build()`: per-instance element labels zipped with coordinates, the
Bohr unit tag, the Cartesian flag, the optional point group, and the
per-element `_basis` table. -/
structure ReMol where
  atom : List (String × (Int × Int × Int))
  unitName : String
  cart : Bool
  symm : Option String
  basis : List (String × List (ℕ × List (Int × Int)))
deriving DecidableEq

/-- One atom's basis rebuild: `[[l, *zip(e, c)] for l, e, c in zip(...)]`. -/
def build_at_basis (ls : List ℕ) (exps coefs : List (List Int)) : List (ℕ × List (Int × Int)) :=
  (ls.zip (exps.zip coefs)).map (fun x => (x.1, x.2.1.zip x.2.2))

/-- The per-atom loop of `mol_from_trexio`: walks the `_group_by(ls,
nuc_idx)` groups, slicing the shell-level arrays with the running
`p0, p1` window and keying each atom's list by its synthetic element
label. -/
def build_basis_go (elements : List String) :
    ℕ → ℕ → List (List ℕ) → List ℕ → List (List Int) → List (List Int) →
    List (String × List (ℕ × List (Int × Int)))
  | _, _, [], _, _, _ => []
  | ia, p0, g :: rest, ls, exps, coefs =>
    (elements.getD ia "",
      build_at_basis ((ls.drop p0).take g.length) ((exps.drop p0).take g.length)
        ((coefs.drop p0).take g.length))
      :: build_basis_go elements (ia + 1) (p0 + g.length) rest ls exps coefs

/-- `mol_from_trexio`: asserts a Gaussian basis type, refuses files with
ECP data (`if trexio.has_ecp(tf): raise NotImplementedError`), then
reconstructs the geometry and the grouped basis. -/
def mol_from_trexio (f : TrexioFileMol) : Except String ReMol :=
  if f.basisType = "Gaussian" then
    if f.hasEcp then Except.error "NotImplementedError"
    else
      let elements := f.labels.enum.map (fun p => p.2 ++ toString p.1)
      match group_by f.exponents f.shellIndex with
      | Except.error e => Except.error e
      | Except.ok exps =>
        match group_by f.coefficients f.shellIndex with
        | Except.error e => Except.error e
        | Except.ok coefs =>
          match group_by f.shellAngMom f.nucleusIndex with
          | Except.error e => Except.error e
          | Except.ok groups =>
            Except.ok
              { atom := elements.zip f.coords
                unitName := "Bohr"
                cart := if f.hasAoCartesian then f.aoCartesian = 1 else false
                symm := if f.hasPointGroup then some f.pointGroup else none
                basis := build_basis_go elements 0 0 groups f.shellAngMom exps coefs }
  else Except.error "AssertionError"

/-! ## Structural lemmas for the AO-ordering permutation -/

theorem general_block_length (l : ℕ) : (general_block l).length = 2 * l + 1 := by
  simp [general_block]

theorem cache_by_l_eq_general (l : ℕ) (h : l ≠ 1) : cache_by_l l = general_block l := by
  match l with
  | 0 => decide
  | 1 => exact absurd rfl h
  | (n + 2) => rfl

theorem cache_by_l_length (l : ℕ) : (cache_by_l l).length = 2 * l + 1 := by
  match l with
  | 0 => rfl
  | 1 => rfl
  | (n + 2) => rw [cache_by_l_eq_general _ (by omega)]; exact general_block_length _

theorem general_block_mem (l x : ℕ) : x ∈ general_block l ↔ x < 2 * l + 1 := by
  simp only [general_block, List.mem_map, List.mem_range]
  constructor
  · rintro ⟨p, hp, rfl⟩
    by_cases h : p % 2 = 0 <;> simp only [h, if_true, if_false, reduceIte] <;> omega
  · intro hx
    by_cases h : x ≤ l
    · refine ⟨2 * (l - x), by omega, ?_⟩
      have h2 : (2 * (l - x)) % 2 = 0 := by omega
      rw [if_pos h2]; omega
    · refine ⟨2 * (x - l) - 1, by omega, ?_⟩
      have h2 : ¬((2 * (x - l) - 1) % 2 = 0) := by omega
      rw [if_neg h2]; omega

theorem cache_by_l_mem (l x : ℕ) : x ∈ cache_by_l l ↔ x < 2 * l + 1 := by
  match l with
  | 0 => simp [cache_by_l]
  | 1 => simp [cache_by_l]; omega
  | (n + 2) => rw [cache_by_l_eq_general _ (by omega)]; exact general_block_mem _ x

theorem ctr_blocks_mem (l : ℕ) (m : ℕ) : ∀ (off x : ℕ),
    x ∈ ctr_blocks l off m ↔ off ≤ x ∧ x < off + m * (2 * l + 1) := by
  induction m with
  | zero => intro off x; simp [ctr_blocks]
  | succ m ih =>
    intro off x
    have hsm : (m + 1) * (2 * l + 1) = m * (2 * l + 1) + (2 * l + 1) := Nat.succ_mul _ _
    rw [ctr_blocks, List.mem_append, ih, hsm]
    simp only [List.mem_map, cache_by_l_mem]
    constructor
    · rintro (⟨y, hy, rfl⟩ | ⟨h1, h2⟩) <;> omega
    · rintro ⟨h1, h2⟩
      by_cases hx : x < off + (2 * l + 1)
      · exact Or.inl ⟨x - off, by omega, by omega⟩
      · exact Or.inr (by omega)

theorem ctr_blocks_length (l : ℕ) (m : ℕ) : ∀ (off : ℕ),
    (ctr_blocks l off m).length = m * (2 * l + 1) := by
  induction m with
  | zero => intro off; simp [ctr_blocks]
  | succ m ih =>
    intro off
    have hsm : (m + 1) * (2 * l + 1) = m * (2 * l + 1) + (2 * l + 1) := Nat.succ_mul _ _
    rw [ctr_blocks, List.length_append, List.length_map, cache_by_l_length, ih, hsm]
    omega

theorem sph_ao_blocks_mem (shells : List (ℕ × ℕ)) : ∀ (off x : ℕ),
    x ∈ sph_ao_blocks shells off ↔ off ≤ x ∧ x < off + nao_sph shells := by
  induction shells with
  | nil => intro off x; simp [sph_ao_blocks, nao_sph]
  | cons s rest ih =>
    intro off x
    obtain ⟨l, c⟩ := s
    rw [sph_ao_blocks, List.mem_append, ctr_blocks_mem, ih, nao_sph]
    omega

theorem sph_ao_blocks_length (shells : List (ℕ × ℕ)) : ∀ (off : ℕ),
    (sph_ao_blocks shells off).length = nao_sph shells := by
  induction shells with
  | nil => intro off; rfl
  | cons s rest ih =>
    intro off
    obtain ⟨l, c⟩ := s
    rw [sph_ao_blocks, List.length_append, ctr_blocks_length, ih, nao_sph]

theorem order_ao_index_length (cartB : Bool) (shells : List (ℕ × ℕ)) :
    (order_ao_index cartB shells).length = nao cartB shells := by
  cases cartB <;> simp [order_ao_index, nao, sph_ao_blocks_length]

theorem order_ao_index_mem (cartB : Bool) (shells : List (ℕ × ℕ)) (x : ℕ) :
    x ∈ order_ao_index cartB shells ↔ x < nao cartB shells := by
  cases cartB <;> simp [order_ao_index, nao, sph_ao_blocks_mem]

/-- C4: for every all-Cartesian input, `_order_ao_index` returns the
identity permutation `np.arange(mol.nao)` on the atomic-orbital index
range. -/
theorem order_ao_index_cart_identity (shells : List (ℕ × ℕ)) :
    order_ao_index true shells = List.range (nao true shells) := by
  simp [order_ao_index, nao]

/-- C3 counterexample: the `l = 1` block of `_order_ao_index` is the
hard-coded `[2, 0, 1]` (PySCF stores p functions as x, y, z), which
diverges from the general interleaving formula's `[1, 2, 0]`; hence the
claimed all-blocks-from-the-single-formula property fails on a single
p shell. -/
theorem order_ao_index_l1_diverges :
    order_ao_index false [(1, 1)] ≠ order_ao_index_formula [(1, 1)] := by decide

theorem ctr_blocks_eq_formula (l : ℕ) (h : l ≠ 1) (m : ℕ) : ∀ (off : ℕ),
    ctr_blocks l off m = ctr_blocks_formula l off m := by
  induction m with
  | zero => intro off; rfl
  | succ m ih => intro off; rw [ctr_blocks, ctr_blocks_formula, cache_by_l_eq_general l h, ih]

theorem sph_ao_blocks_eq_formula (shells : List (ℕ × ℕ)) (h : ∀ s ∈ shells, s.1 ≠ 1) :
    ∀ (off : ℕ), sph_ao_blocks shells off = sph_ao_blocks_formula shells off := by
  induction shells with
  | nil => intro off; rfl
  | cons s rest ih =>
    intro off
    obtain ⟨l, c⟩ := s
    rw [sph_ao_blocks, sph_ao_blocks_formula,
      ctr_blocks_eq_formula l (h (l, c) (List.mem_cons_self _ _)),
      ih (fun t ht => h t (List.mem_cons_of_mem _ ht))]

/-- C3 (amended): the spherical `_order_ao_index` concatenates per-shell
blocks in shell order, advancing the offset by `2*l+1` per contraction
column, and every block with `l ≠ 1` (including `l = 0`) is the one given
by the general interleaving formula; only the `l = 1` block is
special-cased to `[2, 0, 1]`.  For shell lists without p shells the
ordering therefore equals the uniform-formula ordering. -/
theorem order_ao_index_follows_formula (shells : List (ℕ × ℕ))
    (h : ∀ s ∈ shells, s.1 ≠ 1) :
    order_ao_index false shells = order_ao_index_formula shells := by
  simpa [order_ao_index, order_ao_index_formula] using sph_ao_blocks_eq_formula shells h 0

/-- C3 witness: a concrete p-free shell list on which the source ordering
and the uniform-formula ordering agree. -/
theorem order_ao_index_follows_formula_witness :
    (∀ s ∈ [((0 : ℕ), (1 : ℕ)), (2, 2), (3, 1)], s.1 ≠ 1) ∧
      order_ao_index false [(0, 1), (2, 2), (3, 1)] =
        order_ao_index_formula [(0, 1), (2, 2), (3, 1)] :=
  ⟨by decide, order_ao_index_follows_formula [(0, 1), (2, 2), (3, 1)] (by decide)⟩

/-! ## The restricted-orbital round trip -/

theorem assign_rows_not_mem (pairs : List (ℕ × (ℕ → Int))) : ∀ (acc : ℕ → ℕ → Int) (i j : ℕ),
    (∀ p ∈ pairs, p.1 ≠ i) → assign_rows pairs acc i j = acc i j := by
  induction pairs with
  | nil => intro acc i j _; rfl
  | cons q rest ih =>
    intro acc i j h
    obtain ⟨r, v⟩ := q
    rw [assign_rows, ih _ i j (fun p hp => h p (List.mem_cons_of_mem _ hp))]
    have hir : ¬(i = r) := fun he => h (r, v) (List.mem_cons_self _ _) he.symm
    simp only [hir, if_false, reduceIte]

theorem assign_rows_mem (pairs : List (ℕ × (ℕ → Int))) : ∀ (acc : ℕ → ℕ → Int) (i j : ℕ) (w : Int),
    (∃ p ∈ pairs, p.1 = i) → (∀ p ∈ pairs, p.1 = i → p.2 j = w) →
    assign_rows pairs acc i j = w := by
  induction pairs with
  | nil => rintro acc i j w ⟨p, hp, _⟩ _; exact absurd hp (List.not_mem_nil p)
  | cons q rest ih =>
    rintro acc i j w hex hall
    obtain ⟨r, v⟩ := q
    rw [assign_rows]
    by_cases hrest : ∃ p ∈ rest, p.1 = i
    · exact ih _ i j w hrest (fun p hp => hall p (List.mem_cons_of_mem _ hp))
    · have hr : r = i := by
        obtain ⟨p, hp, hp1⟩ := hex
        rcases List.mem_cons.mp hp with h1 | h2
        · rw [h1] at hp1; exact hp1
        · exact absurd ⟨p, h2, hp1⟩ hrest
      have hnone : ∀ p ∈ rest, p.1 ≠ i := fun p hp he => hrest ⟨p, hp, he⟩
      rw [assign_rows_not_mem rest _ i j hnone]
      simp only [hr, if_true, reduceIte]
      exact hall (r, v) (List.mem_cons_self _ _) hr

/-- C1: for every restricted wavefunction with a square coefficient matrix,
importing what `_scf_to_trexio` exported reconstructs the original
orbital coefficients: `scf_from_trexio` undoes the `_order_ao_index`
permutation and the transpose, for both orbital kinds and regardless of
the junk contents of the `np.empty_like` seed. -/
theorem scf_roundtrip_mo (cartB : Bool) (shells : List (ℕ × ℕ)) (mo seed : ℕ → ℕ → Int)
    (i j : ℕ) (hi : i < nao cartB shells) (hj : j < nao cartB shells) :
    scf_from_trexio_mo cartB shells (write_mo_coefficient cartB shells mo) seed i j = mo i j := by
  have hn0 : 0 < nao cartB shells := Nat.lt_of_le_of_lt (Nat.zero_le i) hi
  have hmem : i ∈ order_ao_index cartB shells := (order_ao_index_mem cartB shells i).mpr hi
  obtain ⟨k, hklen, hik⟩ := List.mem_iff_getElem.mp hmem
  have hkn : k < nao cartB shells := by
    rw [order_ao_index_length] at hklen; exact hklen
  rw [scf_from_trexio_mo]
  apply assign_rows_mem
  · refine ⟨((order_ao_index cartB shells).getD k 0,
      fun j' => transpose_f (reshape_f (nao cartB shells)
        (write_mo_coefficient cartB shells mo)) k j'), ?_, ?_⟩
    · exact List.mem_map.mpr ⟨k, List.mem_range.mpr hkn, rfl⟩
    · show (order_ao_index cartB shells).getD k 0 = i
      rw [List.getD_eq_getElem _ 0 hklen]
      exact hik
  · rintro p hp hpi
    obtain ⟨k', hk', rfl⟩ := List.mem_map.mp hp
    have hk'n : k' < nao cartB shells := List.mem_range.mp hk'
    simp only at hpi
    show transpose_f (reshape_f (nao cartB shells)
      (write_mo_coefficient cartB shells mo)) k' j = mo i j
    simp only [transpose_f, reshape_f, write_mo_coefficient, ravel_f, fancy_rows]
    have hc : j * nao cartB shells + k' = k' + nao cartB shells * j := by ring
    have hdiv : (j * nao cartB shells + k') / nao cartB shells = j := by
      rw [hc, Nat.add_mul_div_left _ _ hn0, Nat.div_eq_of_lt hk'n]; omega
    have hmod : (j * nao cartB shells + k') % nao cartB shells = k' := by
      rw [hc, Nat.add_mul_mod_self_left, Nat.mod_eq_of_lt hk'n]
    rw [hdiv, hmod, hpi]

/-- C1 witness: the round trip evaluated at a concrete spherical two-shell
(s + p) basis and a concrete 4 x 4 coefficient matrix. -/
theorem scf_roundtrip_mo_witness :
    ((3 : ℕ) < nao false [(0, 1), (1, 1)] ∧ (2 : ℕ) < nao false [(0, 1), (1, 1)]) ∧
      scf_from_trexio_mo false [(0, 1), (1, 1)]
        (write_mo_coefficient false [(0, 1), (1, 1)] (fun i j => (10 * i + j : Int)))
        (fun _ _ => (-99 : Int)) 3 2 = (10 * 3 + 2 : Int) :=
  ⟨⟨by decide, by decide⟩,
    scf_roundtrip_mo false [(0, 1), (1, 1)] (fun i j => (10 * i + j : Int))
      (fun _ _ => (-99 : Int)) 3 2 (by decide) (by decide)⟩

/-! ## The 8-fold-symmetry integral round trip -/

theorem tri_succ (n : ℕ) : tri (n + 1) = tri n + (n + 1) := by
  obtain ⟨r, hr⟩ := Nat.even_mul_succ_self n
  show (n + 1) * (n + 1 + 1) / 2 = n * (n + 1) / 2 + (n + 1)
  have h2 : (n + 1) * (n + 1 + 1) = n * (n + 1) + 2 * (n + 1) := by ring
  rw [h2, hr]
  omega

theorem tri_mono {i n : ℕ} (h : i ≤ n) : tri i ≤ tri n :=
  Nat.div_le_div_right (Nat.mul_le_mul h (by omega))

theorem sqrt_two_tri (n : ℕ) : Nat.sqrt (2 * tri n) = n := by
  have he : 2 * tri n = n * n + n := by
    obtain ⟨r, hr⟩ := Nat.even_mul_succ_self n
    have hx : n * (n + 1) = n * n + n := by ring
    show 2 * (n * (n + 1) / 2) = n * n + n
    omega
  rw [he]
  have h1 : Nat.sqrt (n * n + n) < n + 1 := by
    rw [Nat.sqrt_lt]
    nlinarith
  have h2 : n ≤ Nat.sqrt (n * n + n) := by
    rw [Nat.le_sqrt]
    omega
  omega

theorem tril_pairs_length (n : ℕ) : (tril_pairs n).length = tri n := by
  induction n with
  | zero => rfl
  | succ n ih =>
    rw [tril_pairs, List.length_append, List.length_map, List.length_range, ih, tri_succ]

theorem tri_decomp (n : ℕ) : ∀ (m : ℕ), m < tri n → ∃ i j, j ≤ i ∧ i < n ∧ m = tri i + j := by
  induction n with
  | zero => intro m h; rw [show tri 0 = 0 from rfl] at h; omega
  | succ n ih =>
    intro m h
    by_cases hm : m < tri n
    · obtain ⟨i, j, hj, hi, he⟩ := ih m hm
      exact ⟨i, j, hj, by omega, he⟩
    · have hs := tri_succ n
      exact ⟨n, m - tri n, by omega, by omega, by omega⟩

theorem tril_pairs_getElem : ∀ (n i j : ℕ), j ≤ i → i < n →
    ∀ (h : tri i + j < (tril_pairs n).length), (tril_pairs n)[tri i + j] = (i, j) := by
  intro n
  induction n with
  | zero => intro i j hj hi h; omega
  | succ n ih =>
    intro i j hj hi h
    have hTP : tril_pairs (n + 1) = tril_pairs n ++ (List.range (n + 1)).map (fun j => (n, j)) :=
      rfl
    by_cases hin : i < n
    · have hlt : tri i + j < (tril_pairs n).length := by
        rw [tril_pairs_length]
        have h1 := tri_succ i
        have h2 := tri_mono (show i + 1 ≤ n from hin)
        omega
      simp only [hTP]
      rw [List.getElem_append_left hlt]
      exact ih i j hj hin hlt
    · have hieq : i = n := by omega
      subst hieq
      have hge : (tril_pairs i).length ≤ tri i + j := by rw [tril_pairs_length]; omega
      simp only [hTP]
      rw [List.getElem_append_right hge]
      simp [tril_pairs_length, List.getElem_map, List.getElem_range]

theorem tril_pairs_getD (n i j : ℕ) (hj : j ≤ i) (hi : i < n) :
    (tril_pairs n).getD (tri i + j) (0, 0) = (i, j) := by
  have h : tri i + j < (tril_pairs n).length := by
    rw [tril_pairs_length]
    have h1 := tri_succ i
    have h2 := tri_mono (show i + 1 ≤ n from hi)
    omega
  rw [List.getD_eq_getElem _ _ h]
  exact tril_pairs_getElem n i j hj hi h

theorem eri_idx_list_length (npair n : ℕ) : (eri_idx_list npair n).length = tri npair := by
  rw [eri_idx_list, List.length_map, tril_pairs_length]

theorem eri_idx_list_addr (n m : ℕ) (h : m < tri (tri n)) :
    eri_addr ((eri_idx_list (tri n) n).getD m (0, 0, 0, 0)) = m := by
  obtain ⟨p, q, hq, hp, hm⟩ := tri_decomp (tri n) m h
  subst hm
  have hlen : tri p + q < (tril_pairs (tri n)).length := by
    rw [tril_pairs_length]; exact h
  rw [eri_idx_list, List.getD_eq_getElem _ _ (by rw [List.length_map]; exact hlen),
    List.getElem_map, tril_pairs_getElem (tri n) p q hq hp hlen]
  obtain ⟨pi, pj, hpj, hpi, hpm⟩ := tri_decomp n p hp
  obtain ⟨qi, qj, hqj, hqi, hqm⟩ := tri_decomp n q (by omega)
  subst hpm
  subst hqm
  rw [tril_pairs_getD n pi pj hpj hpi, tril_pairs_getD n qi qj hqj hqi]
  rfl

theorem eri_foldl_length (L : List ((ℕ × ℕ × ℕ × ℕ) × Int)) : ∀ (acc : List Int),
    (L.foldl (fun acc e => acc.set (eri_addr e.1) e.2) acc).length = acc.length := by
  induction L with
  | nil => intro acc; rfl
  | cons e rest ih => intro acc; rw [List.foldl_cons, ih, List.length_set]

theorem eri_foldl_getD_ne (L : List ((ℕ × ℕ × ℕ × ℕ) × Int)) : ∀ (acc : List Int) (i : ℕ),
    (∀ e ∈ L, eri_addr e.1 ≠ i) →
    (L.foldl (fun acc e => acc.set (eri_addr e.1) e.2) acc).getD i 0 = acc.getD i 0 := by
  induction L with
  | nil => intro acc i _; rfl
  | cons e rest ih =>
    intro acc i h
    rw [List.foldl_cons, ih _ i (fun e' he' => h e' (List.mem_cons_of_mem _ he'))]
    have hne : eri_addr e.1 ≠ i := h e (List.mem_cons_self _ _)
    by_cases hi : i < acc.length
    · rw [List.getD_eq_getElem _ _ (by rw [List.length_set]; exact hi),
        List.getD_eq_getElem _ _ hi]
      exact List.getElem_set_ne hne _
    · rw [List.getD_eq_default _ _ (by rw [List.length_set]; omega),
        List.getD_eq_default _ _ (by omega)]

theorem eri_foldl_getD_eq (L : List ((ℕ × ℕ × ℕ × ℕ) × Int)) : ∀ (acc : List Int) (i : ℕ) (v : Int),
    i < acc.length → (∃ e ∈ L, eri_addr e.1 = i) → (∀ e ∈ L, eri_addr e.1 = i → e.2 = v) →
    (L.foldl (fun acc e => acc.set (eri_addr e.1) e.2) acc).getD i 0 = v := by
  induction L with
  | nil => rintro acc i v _ ⟨e, he, _⟩ _; exact absurd he (List.not_mem_nil e)
  | cons e rest ih =>
    rintro acc i v hi hex hall
    rw [List.foldl_cons]
    by_cases hrest : ∃ e' ∈ rest, eri_addr e'.1 = i
    · exact ih _ i v (by rw [List.length_set]; exact hi) hrest
        (fun e' he' => hall e' (List.mem_cons_of_mem _ he'))
    · have he : eri_addr e.1 = i := by
        obtain ⟨e', he', he1⟩ := hex
        rcases List.mem_cons.mp he' with h1 | h2
        · rw [h1] at he1; exact he1
        · exact absurd ⟨e', h2, he1⟩ hrest
      have hnone : ∀ e' ∈ rest, eri_addr e'.1 ≠ i := fun e' he' hc => hrest ⟨e', he', hc⟩
      rw [eri_foldl_getD_ne rest _ i hnone]
      subst he
      have hlset : eri_addr e.1 < (acc.set (eri_addr e.1) e.2).length := by
        rw [List.length_set]; exact hi
      rw [List.getD_eq_getElem _ _ hlset, List.getElem_set_self hlset]
      exact hall e (List.mem_cons_self _ _) rfl

/-- C2: for every orbital count `n` and every packed 8-fold-symmetric
integral array of length `t*(t+1)/2` with `t = n*(n+1)/2`, reading back
what `write_eri` stored (with the orbital count available to the reader)
recovers the array exactly; positions never scattered to keep the zero
default of `np.zeros`. -/
theorem eri_roundtrip (n : ℕ) (T : List Int) (hT : T.length = tri (tri n)) :
    read_eri n (write_eri T) = T := by
  have hnpair : Nat.sqrt (2 * T.length) = tri n := by rw [hT]; exact sqrt_two_tri (tri n)
  have hw : write_eri T = (eri_idx_list (tri n) n).zip T := by
    rw [write_eri, hnpair, sqrt_two_tri n]
  have hziplen : ((eri_idx_list (tri n) n).zip T).length = tri (tri n) := by
    rw [List.length_zip _ _, eri_idx_list_length, hT]
    omega
  rw [hw, read_eri]
  apply List.ext_getElem
  · rw [eri_foldl_length, List.length_replicate, hT]
    rfl
  · intro m h1 h2
    have hm : m < tri (tri n) := by rw [← hT]; exact h2
    rw [← List.getD_eq_getElem _ 0 h1, ← List.getD_eq_getElem _ 0 h2]
    apply eri_foldl_getD_eq
    · rw [List.length_replicate]
      exact hm
    · have hmz : m < ((eri_idx_list (tri n) n).zip T).length := by rw [hziplen]; exact hm
      have hmIdx : m < (eri_idx_list (tri n) n).length := by
        rw [eri_idx_list_length]; exact hm
      refine ⟨((eri_idx_list (tri n) n).zip T)[m], List.getElem_mem hmz, ?_⟩
      rw [List.getElem_zip]
      have haddr := eri_idx_list_addr n m hm
      rw [List.getD_eq_getElem _ _ hmIdx] at haddr
      exact haddr
    · rintro e he heq
      obtain ⟨k, hk, hke⟩ := List.mem_iff_getElem.mp he
      have hkz : k < tri (tri n) := by rw [← hziplen]; exact hk
      have hkIdx : k < (eri_idx_list (tri n) n).length := by
        rw [eri_idx_list_length]; exact hkz
      have hkT : k < T.length := by rw [hT]; exact hkz
      rw [List.getElem_zip] at hke
      subst hke
      have haddr := eri_idx_list_addr n k hkz
      rw [List.getD_eq_getElem _ _ hkIdx] at haddr
      have hkm : k = m := by rw [← haddr]; exact heq
      subst hkm
      rw [List.getD_eq_getElem _ 0 h2]

/-- C2 witness: the round trip evaluated for two orbitals (pair count 3,
packed length 6). -/
theorem eri_roundtrip_witness :
    ([10, 20, 30, 40, 50, 60] : List Int).length = tri (tri 2) ∧
      read_eri 2 (write_eri [10, 20, 30, 40, 50, 60]) = [10, 20, 30, 40, 50, 60] :=
  ⟨by decide, eri_roundtrip 2 [10, 20, 30, 40, 50, 60] (by decide)⟩

/-! ## Unrestricted export, ECP encoding, and guard checks -/

/-- C5 (code evaluation): for every unrestricted mean-field input the
unrestricted branch of `_scf_to_trexio` raises `TypeError`: the call
`np.hstack(*mf.mo_coeff)` unpacks the two coefficient blocks into two
positional arguments of `np.hstack`, whose signature admits only one.
No `mo` group data is written. -/
theorem scf_to_trexio_uhf_raises (mf : UhfMf) :
    scf_to_trexio_uhf mf =
      Except.error "TypeError: hstack() takes 1 positional argument but 2 were given" := rfl

/-- C6 counterexample: a structure whose ECP table is non-empty (it holds
fluorine) and whose single non-ghost hydrogen nucleus appears in the table
under neither label makes the encoder abort with an uncaught `KeyError`
instead of emitting nothing for that nucleus and completing. -/
theorem encode_ecp_missing_raises :
    encode_ecp [("H", "H")] [("F", 2, [⟨0, [[(5, 7)]]⟩])] = Except.error "KeyError" := rfl

theorem encode_ecp_go_missing (tbl : List (String × Int × List EcpShell)) (chem atom : String)
    (hg : ghost_label chem = false) (hg2 : ghost_label atom = false)
    (h1 : tbl.lookup atom = none) (h2 : tbl.lookup chem = none) :
    ∀ (atoms : List (String × String)) (i : ℕ), (chem, atom) ∈ atoms →
      except_is_ok (encode_ecp_go tbl i atoms) = false := by
  intro atoms
  induction atoms with
  | nil => intro i h; exact absurd h (List.not_mem_nil _)
  | cons a rest ih =>
    intro i hmem
    obtain ⟨c, t⟩ := a
    simp only [encode_ecp_go]
    by_cases hg3 : (ghost_label c || ghost_label t) = true
    · have hrest : (chem, atom) ∈ rest := by
        rcases List.mem_cons.mp hmem with hh | hr
        · have hc : chem = c := congrArg Prod.fst hh
          have ht : atom = t := congrArg Prod.snd hh
          rw [← hc, ← ht, hg, hg2] at hg3
          simp at hg3
        · exact hr
      have hx := ih (i + 1) hrest
      rw [if_pos hg3]
      cases hrec : encode_ecp_go tbl (i + 1) rest with
      | error e => rfl
      | ok v =>
        rw [hrec] at hx
        simp [except_is_ok] at hx
    · rw [if_neg hg3]
      rcases List.mem_cons.mp hmem with hh | hr
      · have hc : chem = c := congrArg Prod.fst hh
        have ht : atom = t := congrArg Prod.snd hh
        have hlook : ecp_lookup tbl t c = Except.error "KeyError" := by
          rw [ecp_lookup, ← ht, ← hc, h1, h2]
        rw [hlook]
        rfl
      · cases hlook : ecp_lookup tbl t c with
        | error e => rfl
        | ok d =>
          obtain ⟨z, shells⟩ := d
          simp only []
          cases hat : encode_ecp_atom i shells with
          | error e => rfl
          | ok pe =>
            obtain ⟨plus1, es1⟩ := pe
            simp only []
            have hx := ih (i + 1) hr
            cases hrec : encode_ecp_go tbl (i + 1) rest with
            | error e => rfl
            | ok v =>
              rw [hrec] at hx
              simp [except_is_ok] at hx

/-- C6 (amended): when the ECP table is non-empty and some non-ghost
nucleus appears in it under neither its atom symbol nor its chemical
symbol, the encoder emits no flat-array rows for that nucleus because the
whole export aborts with an uncaught `KeyError`; it does not complete. -/
theorem encode_ecp_missing_not_ok (atoms : List (String × String))
    (tbl : List (String × Int × List EcpShell)) (chem atom : String)
    (hmem : (chem, atom) ∈ atoms)
    (hg : ghost_label chem = false) (hg2 : ghost_label atom = false)
    (h1 : tbl.lookup atom = none) (h2 : tbl.lookup chem = none) :
    except_is_ok (encode_ecp atoms tbl) = false :=
  encode_ecp_go_missing tbl chem atom hg hg2 h1 h2 atoms 0 hmem

/-- C6 witness: the amended statement applied to a two-nucleus system in
which sodium is missing from a non-empty ECP table. -/
theorem encode_ecp_missing_not_ok_witness :
    except_is_ok (encode_ecp [("F", "F"), ("Na", "Na2")]
      [("F", 2, [⟨0, [[(5, 7)]]⟩])]) = false :=
  encode_ecp_missing_not_ok [("F", "F"), ("Na", "Na2")]
    [("F", 2, [⟨0, [[(5, 7)]]⟩])] "Na" "Na2"
    (by decide) (by decide) (by decide) (by decide) (by decide)

/-- C7: the generalized-contraction guard of `_mol_to_trexio` raises the
unsupported-feature error exactly when some shell's contraction-column
count differs from 1, and accepts exactly the all-segment-contraction
structures. -/
theorem contraction_check_iff (nctrs : List ℕ) :
    (contraction_check nctrs
        = Except.error "NotImplementedError: The generalized contraction is not supported."
      ↔ ∃ c ∈ nctrs, c ≠ 1)
    ∧ (contraction_check nctrs = Except.ok () ↔ ∀ c ∈ nctrs, c = 1) := by
  by_cases hall : ∀ c ∈ nctrs, c = 1
  · have hb : (nctrs.all fun c => decide (c = 1)) = true := by
      rw [List.all_eq_true]
      intro c hc
      simpa using hall c hc
    rw [contraction_check, if_pos hb]
    constructor
    · constructor
      · intro h
        exact absurd h (by simp)
      · rintro ⟨c, hc, hne⟩
        exact absurd (hall c hc) hne
    · exact ⟨fun _ => hall, fun _ => rfl⟩
  · have hex : ∃ c ∈ nctrs, c ≠ 1 := by
      push_neg at hall
      exact hall
    have hb : (nctrs.all fun c => decide (c = 1)) = false := by
      obtain ⟨c, hc, hne⟩ := hex
      rw [List.all_eq_false]
      exact ⟨c, hc, by simpa using hne⟩
    rw [contraction_check, if_neg (by rw [hb]; exact Bool.false_ne_true)]
    constructor
    · exact ⟨fun _ => hex, fun _ => rfl⟩
    · constructor
      · intro h
        exact absurd h (by simp)
      · intro hf
        obtain ⟨c, hc, hne⟩ := hex
        exact absurd (hf c hc) hne

/-- C8: for every stored file in which ECP data is present,
`mol_from_trexio` never returns a reconstructed structure, and (for the
well-formed Gaussian-basis files the exporter writes) it fails with the
unsupported-feature error before any model is built. -/
theorem mol_from_trexio_ecp_refused (f : TrexioFileMol) (h : f.hasEcp = true) :
    except_is_ok (mol_from_trexio f) = false
    ∧ (f.basisType = "Gaussian" → mol_from_trexio f = Except.error "NotImplementedError") := by
  rw [mol_from_trexio]
  by_cases hb : f.basisType = "Gaussian"
  · rw [if_pos hb, if_pos h]
    exact ⟨rfl, fun _ => rfl⟩
  · rw [if_neg hb]
    exact ⟨rfl, fun hgauss => absurd hgauss hb⟩

/-- C8 witness: the refusal evaluated on a concrete ECP-bearing file. -/
theorem mol_from_trexio_ecp_refused_witness :
    except_is_ok (mol_from_trexio
      ⟨"Gaussian", true, ["H"], [(0, 0, 0)], false, 0, false, "", [0], [0], [0], [1], [1]⟩) = false
    ∧ ((TrexioFileMol.basisType
          ⟨"Gaussian", true, ["H"], [(0, 0, 0)], false, 0, false, "", [0], [0], [0], [1], [1]⟩)
            = "Gaussian" →
        mol_from_trexio
          ⟨"Gaussian", true, ["H"], [(0, 0, 0)], false, 0, false, "", [0], [0], [0], [1], [1]⟩
          = Except.error "NotImplementedError") :=
  mol_from_trexio_ecp_refused
    ⟨"Gaussian", true, ["H"], [(0, 0, 0)], false, 0, false, "", [0], [0], [0], [1], [1]⟩ rfl

/-- C10: the backend dispatcher `_mode` returns the binary-container code 0
exactly for the string `h5` and the text-backend code 1 exactly for every
other string; no selector string is rejected. -/
theorem mode_iff (code : String) :
    (mode code = 0 ↔ code = "h5") ∧ (mode code = 1 ↔ code ≠ "h5") := by
  rw [mode]
  by_cases h : code = "h5"
  · rw [if_pos h]
    exact ⟨⟨fun _ => h, fun _ => rfl⟩, ⟨fun h01 => absurd h01 (by omega), fun hne => absurd h hne⟩⟩
  · rw [if_neg h]
    exact ⟨⟨fun h10 => absurd h10 (by omega), fun he => absurd he h⟩, ⟨fun _ => h, fun _ => rfl⟩⟩

/-! ## The grouping contract -/

theorem pair_check_iff (keys : List Int) :
    ((keys.zip keys.tail).all fun p => decide (p.1 ≤ p.2)) = true ↔
      List.Chain' (· ≤ ·) keys := by
  induction keys with
  | nil => simp
  | cons k1 rest ih =>
    cases rest with
    | nil => simp
    | cons k2 rest2 =>
      rw [List.chain'_cons]
      rw [show (k1 :: k2 :: rest2).tail = k2 :: rest2 from rfl, List.zip_cons_cons,
        List.all_cons]
      rw [show (k2 :: rest2).tail = rest2 from rfl] at ih
      simp only [Bool.and_eq_true, decide_eq_true_eq]
      rw [ih]

theorem indexOf_getD_le (l : List Int) : ∀ (i : ℕ), i < l.length →
    l.indexOf (l.getD i 0) ≤ i := by
  induction l with
  | nil => intro i h; simp at h
  | cons x xs ih =>
    intro i h
    cases i with
    | zero => simp [List.indexOf_cons_self]
    | succ i =>
      have hx : i < xs.length := by simpa using h
      rw [List.getD_cons_succ, List.indexOf_cons]
      cases hbeq : x == xs.getD i 0 with
      | true => simp
      | false =>
        simp only [cond_false]
        have := ih i hx
        omega

theorem getD_indexOf_self (l : List Int) (v : Int) (h : v ∈ l) :
    l.getD (l.indexOf v) 0 = v := by
  have hlt : l.indexOf v < l.length := List.indexOf_lt_length.mpr h
  have hg := List.indexOf_get (a := v) (l := l) hlt
  rw [List.get_eq_getElem] at hg
  rw [List.getD_eq_getElem _ _ hlt]
  exact hg

theorem sorted_getD_le (keys : List Int) (hs : List.Pairwise (· ≤ ·) keys)
    (i j : ℕ) (hij : i ≤ j) (hj : j < keys.length) :
    keys.getD i 0 ≤ keys.getD j 0 := by
  have hi : i < keys.length := by omega
  rw [List.getD_eq_getElem _ _ hi, List.getD_eq_getElem _ _ hj]
  rcases Nat.lt_or_ge i j with hlt | hge
  · exact (List.pairwise_iff_getElem.mp hs) i j hi hj hlt
  · have hieq : i = j := by omega
    subst hieq
    exact le_refl _

theorem mem_unique_idx_iff (keys : List Int) (hs : List.Pairwise (· ≤ ·) keys) (p : ℕ) :
    p ∈ keys.dedup.map (fun v => keys.indexOf v) ↔
      p < keys.length ∧ (p = 0 ∨ keys.getD (p - 1) 0 ≠ keys.getD p 0) := by
  constructor
  · rintro hp
    obtain ⟨v, hv, rfl⟩ := List.mem_map.mp hp
    have hvk : v ∈ keys := List.mem_dedup.mp hv
    have hlt : keys.indexOf v < keys.length := List.indexOf_lt_length.mpr hvk
    refine ⟨hlt, ?_⟩
    by_cases hz : keys.indexOf v = 0
    · exact Or.inl hz
    · refine Or.inr ?_
      intro heq
      have hv1 : keys.getD (keys.indexOf v) 0 = v := getD_indexOf_self keys v hvk
      have hle := indexOf_getD_le keys (keys.indexOf v - 1) (by omega)
      rw [heq, hv1] at hle
      omega
  · rintro ⟨hp, hor⟩
    have hvk : keys.getD p 0 ∈ keys := by
      rw [List.getD_eq_getElem _ _ hp]
      exact List.getElem_mem hp
    refine List.mem_map.mpr ⟨keys.getD p 0, List.mem_dedup.mpr hvk, ?_⟩
    have hle := indexOf_getD_le keys p hp
    rcases Nat.lt_or_ge (keys.indexOf (keys.getD p 0)) p with hlt | hge
    · exfalso
      rcases hor with hz | hne
      · omega
      · have hq : keys.getD (keys.indexOf (keys.getD p 0)) 0 = keys.getD p 0 :=
          getD_indexOf_self keys _ hvk
        have h1 : keys.getD (keys.indexOf (keys.getD p 0)) 0 ≤ keys.getD (p - 1) 0 :=
          sorted_getD_le keys hs _ (p - 1) (by omega) (by omega)
        have h1p : keys.getD p 0 ≤ keys.getD (p - 1) 0 := by rw [← hq]; exact h1
        have h2 : keys.getD (p - 1) 0 ≤ keys.getD p 0 :=
          sorted_getD_le keys hs (p - 1) p (by omega) hp
        exact hne (le_antisymm h2 h1p)
    · omega

theorem first_pos_mem (keys : List Int) (p : ℕ) :
    p ∈ first_pos keys ↔
      p < keys.length ∧ (p = 0 ∨ keys.getD (p - 1) 0 ≠ keys.getD p 0) := by
  simp [first_pos, List.mem_filter, List.mem_range]

theorem unique_idx_pairwise (keys : List Int) (hs : List.Pairwise (· ≤ ·) keys) :
    List.Pairwise (· < ·) (keys.dedup.map (fun v => keys.indexOf v)) := by
  rw [List.pairwise_iff_getElem]
  intro i j hi hj hij
  rw [List.length_map] at hi hj
  simp only [List.getElem_map]
  have hd : List.Pairwise (· ≤ ·) keys.dedup := hs.sublist (List.dedup_sublist keys)
  have hnd : List.Pairwise (· ≠ ·) keys.dedup := List.nodup_dedup keys
  have hvlt : keys.dedup[i] < keys.dedup[j] :=
    lt_of_le_of_ne ((List.pairwise_iff_getElem.mp hd) i j hi hj hij)
      ((List.pairwise_iff_getElem.mp hnd) i j hi hj hij)
  have hmi : keys.dedup[i] ∈ keys := List.mem_dedup.mp (List.getElem_mem hi)
  have hmj : keys.dedup[j] ∈ keys := List.mem_dedup.mp (List.getElem_mem hj)
  rcases Nat.lt_or_ge (keys.indexOf keys.dedup[i]) (keys.indexOf keys.dedup[j]) with h | h
  · exact h
  · exfalso
    have hgi : keys.getD (keys.indexOf keys.dedup[i]) 0 = keys.dedup[i] :=
      getD_indexOf_self _ _ hmi
    have hgj : keys.getD (keys.indexOf keys.dedup[j]) 0 = keys.dedup[j] :=
      getD_indexOf_self _ _ hmj
    have hmono := sorted_getD_le keys hs _ _ h (List.indexOf_lt_length.mpr hmi)
    rw [hgi, hgj] at hmono
    exact absurd hvlt (not_lt.mpr hmono)

theorem first_pos_pairwise (keys : List Int) : List.Pairwise (· < ·) (first_pos keys) :=
  (List.pairwise_lt_range _).filter _

theorem pairwise_lt_ext : ∀ (l1 l2 : List ℕ), List.Pairwise (· < ·) l1 →
    List.Pairwise (· < ·) l2 → (∀ x, x ∈ l1 ↔ x ∈ l2) → l1 = l2 := by
  intro l1
  induction l1 with
  | nil =>
    intro l2 _ _ hmem
    cases l2 with
    | nil => rfl
    | cons b l2' => exact absurd ((hmem b).mpr (List.mem_cons_self _ _)) (List.not_mem_nil b)
  | cons a l1' ih =>
    intro l2 h1 h2 hmem
    cases l2 with
    | nil => exact absurd ((hmem a).mp (List.mem_cons_self _ _)) (List.not_mem_nil a)
    | cons b l2' =>
      have hab : a = b := by
        rcases List.mem_cons.mp ((hmem a).mp (List.mem_cons_self _ _)) with h | h
        · exact h
        · rcases List.mem_cons.mp ((hmem b).mpr (List.mem_cons_self _ _)) with h' | h'
          · exact h'.symm
          · have hba := (List.pairwise_cons.mp h1).1 b h'
            have hab' := (List.pairwise_cons.mp h2).1 a h
            omega
      subst hab
      have htail : ∀ x, x ∈ l1' ↔ x ∈ l2' := by
        intro x
        constructor
        · intro hx
          have hne : x ≠ a := by
            have := (List.pairwise_cons.mp h1).1 x hx
            omega
          rcases List.mem_cons.mp ((hmem x).mp (List.mem_cons_of_mem _ hx)) with h | h
          · exact absurd h hne
          · exact h
        · intro hx
          have hne : x ≠ a := by
            have := (List.pairwise_cons.mp h2).1 x hx
            omega
          rcases List.mem_cons.mp ((hmem x).mpr (List.mem_cons_of_mem _ hx)) with h | h
          · exact absurd h hne
          · exact h
      rw [ih l2' (List.pairwise_cons.mp h1).2 (List.pairwise_cons.mp h2).2 htail]

theorem unique_idx_eq_first_pos (keys : List Int) (hs : List.Pairwise (· ≤ ·) keys) :
    np_unique_return_index keys = first_pos keys := by
  rw [np_unique_return_index, List.Sorted.insertionSort_eq hs]
  apply pairwise_lt_ext _ _ (unique_idx_pairwise keys hs) (first_pos_pairwise keys)
  intro p
  rw [mem_unique_idx_iff keys hs p, first_pos_mem keys p]

theorem drop_take_append_drop {α : Type} (a : List α) : ∀ (lo p : ℕ), lo ≤ p →
    (a.take p).drop lo ++ a.drop p = a.drop lo := by
  induction a with
  | nil => intro lo p _; simp
  | cons x xs ih =>
    intro lo p h
    cases p with
    | zero =>
      have hz : lo = 0 := by omega
      subst hz
      simp
    | succ p =>
      cases lo with
      | zero => simpa using List.take_append_drop (p + 1) (x :: xs)
      | succ lo =>
        simp only [List.take_succ_cons, List.drop_succ_cons]
        exact ih lo p (by omega)

theorem np_split_go_flatten {α : Type} (a : List α) : ∀ (ps : List ℕ) (lo : ℕ),
    List.Chain' (· ≤ ·) (lo :: ps) → (np_split_go a lo ps).flatten = a.drop lo := by
  intro ps
  induction ps with
  | nil => intro lo _; simp [np_split_go]
  | cons p ps ih =>
    intro lo hc
    rw [List.chain'_cons] at hc
    rw [np_split_go, List.flatten_cons, ih p hc.2, drop_take_append_drop a lo p hc.1]

/-- C9: `_group_by` fails its precondition assertion whenever the key array
is not sorted ascending; on sorted keys it returns the stable split of `a`
at the key-change positions, and the concatenation of the groups is the
original array. -/
theorem group_by_contract (a keys : List Int) (hlen : a.length = keys.length) :
    (¬ List.Chain' (· ≤ ·) keys → group_by a keys = Except.error "AssertionError")
    ∧ (List.Chain' (· ≤ ·) keys →
        group_by a keys = Except.ok (np_split a ((first_pos keys).tail))
        ∧ (np_split a ((first_pos keys).tail)).flatten = a) := by
  constructor
  · intro hns
    rw [group_by, if_neg (fun hc => hns ((pair_check_iff keys).mp hc))]
  · intro hs
    have hsp : List.Pairwise (· ≤ ·) keys := List.chain'_iff_pairwise.mp hs
    have hflat : (np_split a ((first_pos keys).tail)).flatten = a := by
      rw [np_split]
      have hchain : List.Chain' (· ≤ ·) ((0 : ℕ) :: (first_pos keys).tail) := by
        rw [List.chain'_iff_pairwise, List.pairwise_cons]
        refine ⟨fun y _ => by omega, ?_⟩
        have htl : List.Pairwise (· < ·) (first_pos keys).tail :=
          (first_pos_pairwise keys).sublist (List.tail_sublist _)
        exact htl.imp (fun h => Nat.le_of_lt h)
      rw [np_split_go_flatten a ((first_pos keys).tail) 0 hchain, List.drop_zero]
    exact ⟨by rw [group_by, if_pos ((pair_check_iff keys).mpr hs),
      unique_idx_eq_first_pos keys hsp], hflat⟩

/-- C9 witness: the grouping contract evaluated on concrete equal-length
arrays with sorted keys. -/
theorem group_by_contract_witness :
    group_by ([10, 20, 30] : List Int) ([0, 0, 1] : List Int)
        = Except.ok [[10, 20], [30]]
    ∧ (np_split ([10, 20, 30] : List Int) ((first_pos ([0, 0, 1] : List Int)).tail)).flatten
        = [10, 20, 30] := by
  have h := (group_by_contract [10, 20, 30] [0, 0, 1] rfl).2
    (by norm_num [List.chain'_cons])
  exact ⟨by rw [h.1]; rfl, h.2⟩
